import Mathlib

/-!
Verification of the harvester filter-list pipeline.

This file gives a shallow embedding of the pipeline's core functions —
the Categorize stage (`src/stages/categorize.rs`), the Extract transform
(`src/stages/extract.rs`), the Extract preparation, the processing engine
(`src/filter_controller.rs`), the file input (`src/input/file.rs`) and the
Hostsfile output adapter (`src/output/hostsfile.rs`) — and proves or refutes
the specification's claims about them.

Modelling conventions:
* A text line (Rust `String` content) is a `List Char` (`Line`); for valid
  UTF-8, Rust's byte-wise `String` ordering coincides with code-point
  lexicographic ordering, which `lexLt` implements.
* Raw bytes are `List Nat` (each entry < 256; the value 10 is LF).
* Whitespace is `Char.isWhitespace` (space, tab, CR, LF), the ASCII core of
  Rust's `char::is_whitespace`.
* Filesystem and network effects are passed in as explicit arguments
  (e.g. a function `String → Except String Unit` standing for the outcome
  of opening a file named by a list id).
* A Rust panic (a `.unwrap()` on `Err`/`None`) is modelled by a dedicated
  outcome (`Option.none` or a `panicked` constructor), distinct from an
  `Except.error` return.
-/

namespace Harvester

/-- A line of text, the content of a Rust `String`. -/
abbrev Line := List Char

/-- The line-feed character (byte 0x0A). -/
def lf : Char := '\n'

/-- Rust `str::trim`: remove whitespace from both ends of a line. -/
def trimLine (l : Line) : Line :=
  ((l.dropWhile Char.isWhitespace).reverse.dropWhile Char.isWhitespace).reverse

/-- Rust `str::trim_end`: remove whitespace from the end of a line. -/
def trimRightLine (l : Line) : Line :=
  (l.reverse.dropWhile Char.isWhitespace).reverse

/-- Strict code-point lexicographic order on lines, the order `BTreeSet<String>`
iterates in (byte-wise UTF-8 order coincides with it on valid UTF-8). -/
def lexLt : Line → Line → Bool
  | [], [] => false
  | [], _ :: _ => true
  | _ :: _, [] => false
  | a :: as, b :: bs =>
    if a.toNat < b.toNat then true
    else if b.toNat < a.toNat then false
    else lexLt as bs

/-- Insertion into a strictly sorted duplicate-free list, the model of
`BTreeSet::insert`. -/
def insertSorted (x : Line) : List Line → List Line
  | [] => [x]
  | y :: ys =>
    if lexLt x y then x :: y :: ys
    else if lexLt y x then y :: insertSorted x ys
    else y :: ys

theorem head?_dropWhile_not {p : Char → Bool} {l a} :
    (List.dropWhile p l).head? = some a → p a = false := by
  induction l with
  | nil => intro h; simp [List.dropWhile] at h
  | cons b bs ih =>
    intro h
    rw [List.dropWhile] at h
    by_cases hb : p b
    · exact ih (by simpa [hb] using h)
    · simp only [hb] at h
      simp only [Bool.false_eq_true, if_false, List.head?] at h
      cases h
      simpa using hb

theorem trimLine_getLast?_not_ws {l : Line} {c : Char} :
    (trimLine l).getLast? = some c → c.isWhitespace = false := by
  intro h
  rw [trimLine, List.getLast?_reverse] at h
  exact head?_dropWhile_not h

theorem trimRightLine_getLast?_not_ws {l : Line} {c : Char} :
    (trimRightLine l).getLast? = some c → c.isWhitespace = false := by
  intro h
  rw [trimRightLine, List.getLast?_reverse] at h
  exact head?_dropWhile_not h

theorem lexLt_of_ne_of_not_lexLt {a b : Line} (hne : a ≠ b)
    (hlt : lexLt a b = false) : lexLt b a = true := by
  induction a generalizing b with
  | nil =>
    cases b with
    | nil => exact absurd rfl hne
    | cons y ys => simp [lexLt] at hlt
  | cons x xs ih =>
    cases b with
    | nil => simp [lexLt]
    | cons y ys =>
      rw [lexLt] at hlt ⊢
      rcases Nat.lt_trichotomy x.toNat y.toNat with h | h | h
      · simp [h] at hlt
      · have hxy : x = y := Char.ext (UInt32.ext h)
        subst hxy
        simp only [Nat.lt_irrefl, if_false] at hlt ⊢
        exact ih (fun he => hne (by rw [he])) hlt
      · simp [h, Nat.lt_asymm h]

theorem mem_insertSorted {x a : Line} {l : List Line} :
    a ∈ insertSorted x l ↔ a = x ∨ a ∈ l := by
  induction l with
  | nil => simp [insertSorted]
  | cons y ys ih =>
    rw [insertSorted]
    by_cases h1 : lexLt x y
    · simp [h1]
    · by_cases h2 : lexLt y x
      · simp only [h1, Bool.false_eq_true, if_false, h2, if_true, List.mem_cons, ih]
        tauto
      · have hxy : x = y := by
          by_contra hne
          have := lexLt_of_ne_of_not_lexLt hne (Bool.eq_false_iff.mpr h1)
          exact h2 this
        subst hxy
        simp only [h1, Bool.false_eq_true, if_false, h2, List.mem_cons]
        tauto

theorem head?_insertSorted {x : Line} {l : List Line} {z : Line} :
    (insertSorted x l).head? = some z → z = x ∨ l.head? = some z := by
  cases l with
  | nil => intro h; simp [insertSorted] at h; exact Or.inl h.symm
  | cons y ys =>
    intro h
    rw [insertSorted] at h
    by_cases h1 : lexLt x y
    · simp [h1] at h; exact Or.inl h.symm
    · by_cases h2 : lexLt y x
      · simp [h1, h2] at h; exact Or.inr (by simp [List.head?, h])
      · simp [h1, h2] at h; exact Or.inr (by simp [List.head?, h])

theorem chain'_insertSorted {x : Line} {l : List Line}
    (h : List.Chain' (fun a b => lexLt a b = true) l) :
    List.Chain' (fun a b => lexLt a b = true) (insertSorted x l) := by
  induction l with
  | nil => simp [insertSorted]
  | cons y ys ih =>
    rw [List.chain'_cons'] at h
    rw [insertSorted]
    by_cases h1 : lexLt x y
    · simp only [h1, if_true]
      rw [List.chain'_cons']
      constructor
      · intro b hb
        simp only [List.head?, Option.mem_def, Option.some.injEq] at hb
        subst hb
        exact h1
      · rw [List.chain'_cons']
        exact h
    · by_cases h2 : lexLt y x
      · simp only [h1, Bool.false_eq_true, if_false, h2, if_true]
        rw [List.chain'_cons']
        refine ⟨?_, ih h.2⟩
        intro b hb
        rcases head?_insertSorted hb with hbx | hby
        · subst hbx; exact h2
        · exact h.1 b hby
      · simp only [h1, Bool.false_eq_true, if_false, h2, if_true]
        rw [List.chain'_cons']
        exact h

/-- File compression method (`src/input/file.rs`, `Compression`). -/
inductive Compression
  | gz
  | targz (archiveListFile : String)
deriving DecidableEq

/-- Modelled from the spec: the current `FilterList` descriptor (§3) is absent
from the sources (only an older variant without `regex`/`compression` is
present); its fields are reconstructed from the spec and from the literal
`FilterList` values built in the stage tests. -/
structure FilterList where
  id : String
  source : String
  comment : Option String
  compression : Option Compression
  tags : List String
  regex : String
deriving DecidableEq

/-- The non-recursive part of `Config` (`src/config.rs`): the list of
configured filter lists. Only `lists` matters to the claims here. -/
structure ConfigBase where
  lists : List FilterList
deriving DecidableEq

/-- `Config::lists_with_tag`: the configured lists carrying a tag. -/
def lists_with_tag (c : ConfigBase) (tag : String) : List FilterList :=
  c.lists.filter (fun l => tag ∈ l.tags)

/-- `Config` with its optional previous-run configuration
(`cached_config`, one level deep). -/
structure Config extends ConfigBase where
  cachedConfig : Option ConfigBase

/-- One `chunk()` outcome as seen by the Categorize drain loop
(`src/stages/categorize.rs`, `categorize`): a decoded line, a chunk whose
bytes are not valid UTF-8 (warned about and skipped), or a read error
(which ends the `while let Ok(Some(..))` drain of that reader). -/
inductive CChunk
  | line (l : Line)
  | badUtf8
  | readErr
deriving DecidableEq

/-- The payload of a decoded line chunk (`[]` for the other cases); used to
state hypotheses about line chunks in a decidable form. -/
def CChunk.lineOf : CChunk → Line
  | .line l => l
  | .badUtf8 => []
  | .readErr => []

/-- The body of the Categorize insert: trim the decoded chunk, discard it if
empty, otherwise insert it into the ordered set (`categorize`, the
`tree_set.insert` path). -/
def insert_line (t : List Line) (l : Line) : List Line :=
  let s := trimLine l
  if s = [] then t else insertSorted s t

/-- Drain one contributing reader into the ordered set: lines are trimmed and
inserted, undecodable chunks are skipped, a read error ends this reader's
drain (`while let Ok(Some(chunk))`). -/
def drain_reader (t : List Line) : List CChunk → List Line
  | [] => t
  | .line l :: rest => drain_reader (insert_line t l) rest
  | .badUtf8 :: rest => drain_reader t rest
  | .readErr :: _ => t

/-- The ordered set built by `categorize` for one category from its
contributing readers' chunk streams. -/
def categorize_set (files : List (List CChunk)) : List Line :=
  files.foldl drain_reader []

/-- The write step of `categorize`: append an LF unless the line already ends
with one (`if !line.ends_with('\n') { line.push('\n') }`). -/
def push_lf (l : Line) : Line :=
  if l.getLast? = some lf then l else l ++ [lf]

/-- The sequence of lines written to `categorize/<tag>` for one category. -/
def categorize_output (files : List (List CChunk)) : List Line :=
  (categorize_set files).map push_lf

/-- The chunk streams feeding one tag's category: the extract file of every
configured list carrying the tag (`prepare_categorize` attaches a reader over
`extract/<id>` for each list in `lists_with_tag`). -/
def categorize_inputs (cfg : ConfigBase) (extractFiles : String → List CChunk)
    (tag : String) : List (List CChunk) :=
  (lists_with_tag cfg tag).map (fun l => extractFiles l.id)

theorem mem_insert_line {t : List Line} {l : Line} {a : Line} :
    a ∈ insert_line t l ↔ a ∈ t ∨ (trimLine l ≠ [] ∧ trimLine l = a) := by
  rw [insert_line]
  by_cases h : trimLine l = []
  · simp [h]
  · simp only [h, if_false, mem_insertSorted]
    constructor
    · rintro (rfl | ha)
      · exact Or.inr ⟨h, rfl⟩
      · exact Or.inl ha
    · rintro (ha | ⟨_, rfl⟩)
      · exact Or.inr ha
      · exact Or.inl rfl

theorem mem_drain_reader {f : List CChunk} {t : List Line} {a : Line}
    (hre : CChunk.readErr ∉ f) :
    a ∈ drain_reader t f ↔
      a ∈ t ∨ ∃ l, CChunk.line l ∈ f ∧ trimLine l ≠ [] ∧ trimLine l = a := by
  induction f generalizing t with
  | nil => simp [drain_reader]
  | cons c rest ih =>
    have hre' : CChunk.readErr ∉ rest := fun h => hre (List.mem_cons_of_mem _ h)
    cases c with
    | line l =>
      rw [drain_reader, ih hre', mem_insert_line]
      constructor
      · rintro ((ha | ⟨hne, rfl⟩) | ⟨l', hl', hne', rfl⟩)
        · exact Or.inl ha
        · exact Or.inr ⟨l, List.mem_cons_self _ _, hne, rfl⟩
        · exact Or.inr ⟨l', List.mem_cons_of_mem _ hl', hne', rfl⟩
      · rintro (ha | ⟨l', hl', hne', rfl⟩)
        · exact Or.inl (Or.inl ha)
        · rcases List.mem_cons.mp hl' with he | hl''
          · cases he
            exact Or.inl (Or.inr ⟨hne', rfl⟩)
          · exact Or.inr ⟨l', hl'', hne', rfl⟩
    | badUtf8 =>
      rw [drain_reader, ih hre']
      constructor
      · rintro (ha | ⟨l', hl', hne', rfl⟩)
        · exact Or.inl ha
        · exact Or.inr ⟨l', List.mem_cons_of_mem _ hl', hne', rfl⟩
      · rintro (ha | ⟨l', hl', hne', rfl⟩)
        · exact Or.inl ha
        · rcases List.mem_cons.mp hl' with he | hl''
          · cases he
          · exact Or.inr ⟨l', hl'', hne', rfl⟩
    | readErr => exact absurd (List.mem_cons_self _ _) hre

theorem mem_foldl_drain_reader {files : List (List CChunk)} {t : List Line}
    {a : Line} (hre : ∀ f ∈ files, CChunk.readErr ∉ f) :
    a ∈ files.foldl drain_reader t ↔
      a ∈ t ∨ ∃ f ∈ files, ∃ l, CChunk.line l ∈ f ∧ trimLine l ≠ [] ∧
        trimLine l = a := by
  induction files generalizing t with
  | nil => simp
  | cons f rest ih =>
    rw [List.foldl_cons,
      ih (fun g hg => hre g (List.mem_cons_of_mem _ hg)),
      mem_drain_reader (hre f (List.mem_cons_self _ _))]
    constructor
    · rintro ((ha | ⟨l, hl, hne, rfl⟩) | ⟨g, hg, l, hl, hne, rfl⟩)
      · exact Or.inl ha
      · exact Or.inr ⟨f, List.mem_cons_self _ _, l, hl, hne, rfl⟩
      · exact Or.inr ⟨g, List.mem_cons_of_mem _ hg, l, hl, hne, rfl⟩
    · rintro (ha | ⟨g, hg, l, hl, hne, rfl⟩)
      · exact Or.inl (Or.inl ha)
      · rcases List.mem_cons.mp hg with he | hg'
        · subst he
          exact Or.inl (Or.inr ⟨l, hl, hne, rfl⟩)
        · exact Or.inr ⟨g, hg', l, hl, hne, rfl⟩

theorem mem_categorize_set {files : List (List CChunk)} {a : Line}
    (hre : ∀ f ∈ files, CChunk.readErr ∉ f) :
    a ∈ categorize_set files ↔
      ∃ f ∈ files, ∃ l, CChunk.line l ∈ f ∧ trimLine l ≠ [] ∧
        trimLine l = a := by
  rw [categorize_set, mem_foldl_drain_reader hre]
  simp

theorem mem_drain_reader_src {f : List CChunk} {t : List Line} {a : Line} :
    a ∈ drain_reader t f →
      a ∈ t ∨ ∃ l, CChunk.line l ∈ f ∧ trimLine l ≠ [] ∧ trimLine l = a := by
  induction f generalizing t with
  | nil => intro h; exact Or.inl h
  | cons c rest ih =>
    cases c with
    | line l =>
      intro h
      rcases ih h with ha | ⟨l', hl', hne', rfl⟩
      · rcases mem_insert_line.mp ha with ha' | ⟨hne, rfl⟩
        · exact Or.inl ha'
        · exact Or.inr ⟨l, List.mem_cons_self _ _, hne, rfl⟩
      · exact Or.inr ⟨l', List.mem_cons_of_mem _ hl', hne', rfl⟩
    | badUtf8 =>
      intro h
      rcases ih h with ha | ⟨l', hl', hne', rfl⟩
      · exact Or.inl ha
      · exact Or.inr ⟨l', List.mem_cons_of_mem _ hl', hne', rfl⟩
    | readErr => intro h; exact Or.inl h

theorem mem_categorize_set_src {files : List (List CChunk)} {a : Line} :
    a ∈ categorize_set files →
      ∃ f ∈ files, ∃ l, CChunk.line l ∈ f ∧ trimLine l ≠ [] ∧
        trimLine l = a := by
  rw [categorize_set]
  suffices h : ∀ t : List Line, a ∈ files.foldl drain_reader t →
      a ∈ t ∨ ∃ f ∈ files, ∃ l, CChunk.line l ∈ f ∧ trimLine l ≠ [] ∧
        trimLine l = a by
    intro hm
    rcases h [] hm with hh | hh
    · cases hh
    · exact hh
  induction files with
  | nil => intro t h; exact Or.inl h
  | cons f rest ih =>
    intro t h
    rw [List.foldl_cons] at h
    rcases ih _ h with ha | ⟨g, hg, l, hl, hne, rfl⟩
    · rcases mem_drain_reader_src ha with ha' | ⟨l, hl, hne, rfl⟩
      · exact Or.inl ha'
      · exact Or.inr ⟨f, List.mem_cons_self _ _, l, hl, hne, rfl⟩
    · exact Or.inr ⟨g, List.mem_cons_of_mem _ hg, l, hl, hne, rfl⟩

theorem chain'_insert_line {t : List Line} {l : Line}
    (h : List.Chain' (fun a b => lexLt a b = true) t) :
    List.Chain' (fun a b => lexLt a b = true) (insert_line t l) := by
  rw [insert_line]
  by_cases he : trimLine l = []
  · simpa [he] using h
  · simpa [he] using chain'_insertSorted h

theorem chain'_drain_reader {f : List CChunk} {t : List Line}
    (h : List.Chain' (fun a b => lexLt a b = true) t) :
    List.Chain' (fun a b => lexLt a b = true) (drain_reader t f) := by
  induction f generalizing t with
  | nil => exact h
  | cons c rest ih =>
    cases c with
    | line l => exact ih (chain'_insert_line h)
    | badUtf8 => exact ih h
    | readErr => exact h

theorem chain'_categorize_set {files : List (List CChunk)} :
    List.Chain' (fun a b => lexLt a b = true) (categorize_set files) := by
  rw [categorize_set]
  suffices h : ∀ t : List Line, List.Chain' (fun a b => lexLt a b = true) t →
      List.Chain' (fun a b => lexLt a b = true) (files.foldl drain_reader t) from
    h [] (by simp)
  induction files with
  | nil => intro t h; exact h
  | cons f rest ih => intro t h; exact ih _ (chain'_drain_reader h)

theorem push_lf_of_mem_categorize_set {files : List (List CChunk)} {a : Line}
    (h : a ∈ categorize_set files) : push_lf a = a ++ [lf] := by
  rw [push_lf]
  rcases mem_categorize_set_src h with ⟨f, _, l, _, hne, rfl⟩
  by_cases hl : (trimLine l).getLast? = some lf
  · have := trimLine_getLast?_not_ws hl
    simp [lf, Char.isWhitespace] at this
  · simp [hl]

/-- C1: for a tag `T`, under the hypothesis that every contributing reader's
chunk stream is free of read errors, the set of lines written to
`categorize/T` (each written line is a set element followed by one LF) is
exactly the union, over the configured lists `I` whose tags include `T`, of
the non-empty whitespace-trimmed lines among the chunks of `extract/I`. -/
theorem categorize_lines_union (cfg : ConfigBase)
    (extractFiles : String → List CChunk) (tag : String)
    (hre : ∀ l ∈ lists_with_tag cfg tag, CChunk.readErr ∉ extractFiles l.id) :
    ∀ s : Line,
      (s ++ [lf]) ∈ categorize_output (categorize_inputs cfg extractFiles tag) ↔
      ∃ fl ∈ lists_with_tag cfg tag, ∃ l, CChunk.line l ∈ extractFiles fl.id ∧
        trimLine l = s ∧ s ≠ [] := by
  have hre' : ∀ f ∈ categorize_inputs cfg extractFiles tag,
      CChunk.readErr ∉ f := by
    intro f hf
    rcases List.mem_map.mp hf with ⟨fl, hfl, rfl⟩
    exact hre fl hfl
  intro s
  rw [categorize_output]
  constructor
  · intro h
    rcases List.mem_map.mp h with ⟨a, ha, hpa⟩
    rw [push_lf_of_mem_categorize_set ha] at hpa
    have has : a = s := List.append_cancel_right hpa
    subst has
    rcases (mem_categorize_set hre').mp ha with ⟨f, hf, l, hl, hne, hta⟩
    rcases List.mem_map.mp hf with ⟨fl, hfl, rfl⟩
    exact ⟨fl, hfl, l, hl, hta, hta ▸ hne⟩
  · rintro ⟨fl, hfl, l, hl, hta, hne⟩
    have hs : s ∈ categorize_set (categorize_inputs cfg extractFiles tag) := by
      refine (mem_categorize_set hre').mpr
        ⟨extractFiles fl.id, ?_, l, hl, hta ▸ hne, hta⟩
      exact List.mem_map.mpr ⟨fl, hfl, rfl⟩
    refine List.mem_map.mpr ⟨s, hs, ?_⟩
    exact push_lf_of_mem_categorize_set hs

/-- Witness for C1 on a one-list configuration whose extract file holds the
single line `a.example`. -/
theorem categorize_lines_union_witness :
    ("a.example".data ++ [lf]) ∈ categorize_output (categorize_inputs
      ⟨[⟨"ads", "http://x/ads", none, none, ["advertising"], ""⟩]⟩
      (fun _ => [CChunk.line "a.example\n".data]) "advertising") :=
  (categorize_lines_union
      ⟨[⟨"ads", "http://x/ads", none, none, ["advertising"], ""⟩]⟩
      (fun _ => [CChunk.line "a.example\n".data]) "advertising"
      (by decide) "a.example".data).mpr
    ⟨⟨"ads", "http://x/ads", none, none, ["advertising"], ""⟩, by decide,
      "a.example\n".data, by decide, by decide, by decide⟩

/-- C2: under the hypothesis that no chunk's trimmed line contains an interior
LF (file inputs deliver one line per chunk), the lines of `categorize/<tag>`
are strictly lexicographically increasing (hence duplicate-free), and every
written line is a non-empty LF-free line followed by exactly one LF. -/
theorem categorize_output_sorted (files : List (List CChunk))
    (hlf : ∀ f ∈ files, ∀ c ∈ f, lf ∉ trimLine c.lineOf) :
    List.Chain' (fun a b => lexLt a b = true) (categorize_set files) ∧
    ∀ out ∈ categorize_output files,
      ∃ s, out = s ++ [lf] ∧ s ≠ [] ∧ lf ∉ s := by
  refine ⟨chain'_categorize_set, ?_⟩
  intro out hout
  rcases List.mem_map.mp hout with ⟨a, ha, rfl⟩
  rcases mem_categorize_set_src ha with ⟨f, hf, l, hl, hne, hta⟩
  refine ⟨a, push_lf_of_mem_categorize_set ha, hta ▸ hne, ?_⟩
  have := hlf f hf (CChunk.line l) hl
  rw [CChunk.lineOf] at this
  exact hta ▸ this

/-- Witness for C2 on one contributor holding the unsorted duplicated lines
`b`, `a`, `a`. -/
theorem categorize_output_sorted_witness :
    List.Chain' (fun a b => lexLt a b = true)
      (categorize_set [[CChunk.line "b\n".data, CChunk.line "a\n".data,
        CChunk.line "a\n".data]]) ∧
    ∃ s, ("a".data ++ [lf]) = s ++ [lf] ∧ s ≠ [] ∧ lf ∉ s :=
  ⟨(categorize_output_sorted [[CChunk.line "b\n".data, CChunk.line "a\n".data,
      CChunk.line "a\n".data]] (by decide)).1,
    (categorize_output_sorted [[CChunk.line "b\n".data, CChunk.line "a\n".data,
      CChunk.line "a\n".data]] (by decide)).2 ("a".data ++ [lf]) (by decide)⟩

/-- Outcome of `prepare_categorize` for one tag: skipped as unchanged,
enqueued for processing, or aborted because the fresh writer could not be
created (the `?` on `attach_new_file_writer`). -/
inductive TagDecision
  | unchanged
  | enqueued
  | failed
deriving DecidableEq

/-- The cache condition of `prepare_categorize` for a tag, as computed by the
code: a cached config is present, the previous run's count of lists carrying
the tag equals the current count, the difference between the contributing
ids and the incoming cached set is empty, and `categorize/<tag>` is openable
(`catOpenable` stands for
`attach_existing_file_writer(categorize_path).is_ok()`). -/
def categorize_cache_hit (cfg : Config) (cachedLists : List String)
    (catOpenable : Bool) (tag : String) : Bool :=
  let includeIds := (lists_with_tag cfg.toConfigBase tag).map (fun l => l.id)
  let differenceEmpty := includeIds.all (fun i => cachedLists.contains i)
  match cfg.cachedConfig with
  | some cached =>
    ((lists_with_tag cfg.toConfigBase tag).length ==
        (lists_with_tag cached tag).length)
      && differenceEmpty && catOpenable
  | none => false

/-- The per-tag body of `prepare_categorize` (`src/stages/categorize.rs`).
`newWriterOk` stands for `attach_new_file_writer` succeeding. Returns the
decision together with the updated cached set (the code inserts the tag on
the unchanged path). -/
def prepare_categorize_tag (cfg : Config) (cachedLists : List String)
    (catOpenable : Bool) (newWriterOk : Bool) (tag : String) :
    TagDecision × List String :=
  if categorize_cache_hit cfg cachedLists catOpenable tag then
    (.unchanged, tag :: cachedLists)
  else if newWriterOk then (.enqueued, cachedLists)
  else (.failed, cachedLists)

theorem categorize_cache_hit_iff (cfg : Config) (cachedLists : List String)
    (catOpenable : Bool) (tag : String) :
    categorize_cache_hit cfg cachedLists catOpenable tag = true ↔
      ∃ cc, cfg.cachedConfig = some cc ∧
        (lists_with_tag cfg.toConfigBase tag).length =
          (lists_with_tag cc tag).length ∧
        (∀ l ∈ lists_with_tag cfg.toConfigBase tag, l.id ∈ cachedLists) ∧
        catOpenable = true := by
  rw [categorize_cache_hit]
  cases hcc : cfg.cachedConfig with
  | none => simp
  | some cc =>
    simp only [Option.some.injEq, Bool.and_eq_true, beq_iff_eq,
      List.all_eq_true, List.mem_map]
    constructor
    · rintro ⟨⟨hlen, hall⟩, hopen⟩
      exact ⟨cc, rfl, hlen, fun l hl => by
        simpa using hall l.id ⟨l, hl, rfl⟩, hopen⟩
    · rintro ⟨cc', hcc', hlen, hall, hopen⟩
      cases hcc'
      exact ⟨⟨hlen, fun i hi => by
        rcases hi with ⟨l, hl, rfl⟩
        simpa using hall l hl⟩, hopen⟩

/-- C5: a tag is marked Unchanged, inserted into the outgoing cached set,
and not enqueued exactly when all four conditions hold (cached config
present, equal previous and current list counts for the tag, empty
difference of contributing ids against the cached set, `categorize/<tag>`
openable); when any fails and the fresh writer is created, the tag is
enqueued and the cached set is unchanged. -/
theorem prepare_categorize_tag_cache_check (cfg : Config)
    (cachedLists : List String) (catOpenable newWriterOk : Bool)
    (tag : String) :
    (((prepare_categorize_tag cfg cachedLists catOpenable newWriterOk
          tag).1 = .unchanged ∧
        tag ∈ (prepare_categorize_tag cfg cachedLists catOpenable newWriterOk
          tag).2) ↔
      (∃ cc, cfg.cachedConfig = some cc ∧
        (lists_with_tag cfg.toConfigBase tag).length =
          (lists_with_tag cc tag).length ∧
        (∀ l ∈ lists_with_tag cfg.toConfigBase tag, l.id ∈ cachedLists) ∧
        catOpenable = true)) ∧
    (categorize_cache_hit cfg cachedLists catOpenable tag = false →
      newWriterOk = true →
      (prepare_categorize_tag cfg cachedLists catOpenable newWriterOk
          tag).1 = .enqueued ∧
      (prepare_categorize_tag cfg cachedLists catOpenable newWriterOk
          tag).2 = cachedLists) := by
  rw [← categorize_cache_hit_iff cfg cachedLists catOpenable tag]
  cases hb : categorize_cache_hit cfg cachedLists catOpenable tag with
  | false => cases newWriterOk <;> simp [prepare_categorize_tag, hb]
  | true => simp [prepare_categorize_tag, hb]

/-- Witness for C5: a one-list config whose cached config matches, with the
list cached and the category file openable, is skipped as Unchanged; the
same config without a cached config is enqueued. -/
theorem prepare_categorize_tag_cache_check_witness :
    (prepare_categorize_tag
        ⟨⟨[⟨"l1", "", none, none, ["t"], ""⟩]⟩,
          some ⟨[⟨"l1", "", none, none, ["t"], ""⟩]⟩⟩
        ["l1"] true true "t").1 = .unchanged ∧
    (prepare_categorize_tag
        ⟨⟨[⟨"l1", "", none, none, ["t"], ""⟩]⟩, none⟩
        ["l1"] true true "t").1 = .enqueued :=
  ⟨((prepare_categorize_tag_cache_check
      ⟨⟨[⟨"l1", "", none, none, ["t"], ""⟩]⟩,
        some ⟨[⟨"l1", "", none, none, ["t"], ""⟩]⟩⟩
      ["l1"] true true "t").1.mpr
      ⟨⟨[⟨"l1", "", none, none, ["t"], ""⟩]⟩, rfl, by decide,
        by decide, rfl⟩).1,
    ((prepare_categorize_tag_cache_check
      ⟨⟨[⟨"l1", "", none, none, ["t"], ""⟩]⟩, none⟩
      ["l1"] true true "t").2 (by decide) rfl).1⟩

/-- The Extract transform `regex_match` (`src/stages/extract.rs`), with the
regex engine abstracted: `compile` stands for `Regex::new` (over an
arbitrary compiled-regex type `ρ`) and `captures1` for running `captures`
and taking capture group 1. A chunk is `none` when absent; a present chunk
carries the outcome of `String::from_utf8` on its bytes (an `Except` whose
error holds the decode failure's message). The output string's UTF-8 bytes
are what the Rust function returns. -/
def regex_match {ρ : Type} (compile : String → Except String ρ)
    (captures1 : ρ → String → Option String) (flist : FilterList)
    (chunk : Option (Except String String)) : Except String (Option String) :=
  match chunk with
  | none => .ok none
  | some (.error e) => .error ("Error: " ++ e)
  | some (.ok s) =>
    match compile flist.regex with
    | .error e => .error ("List " ++ flist.id ++ " - " ++ e)
    | .ok r =>
      match captures1 r s with
      | some cap => .ok (some (cap ++ "\n"))
      | none => .ok none

/-- C3: `regex_match` returns None on an absent chunk; fails when the chunk
does not decode as UTF-8; fails with a message containing the list id when
the regex does not compile; returns capture group 1 with a trailing LF when
the compiled regex captures; and returns None when it does not capture. -/
theorem regex_match_cases {ρ : Type} (compile : String → Except String ρ)
    (captures1 : ρ → String → Option String) (flist : FilterList) :
    (regex_match compile captures1 flist none = .ok none) ∧
    (∀ e, ∃ msg, regex_match compile captures1 flist (some (.error e)) =
      .error msg) ∧
    (∀ s e, compile flist.regex = .error e →
      ∃ pre post, regex_match compile captures1 flist (some (.ok s)) =
        .error (pre ++ flist.id ++ post)) ∧
    (∀ s r cap, compile flist.regex = .ok r → captures1 r s = some cap →
      regex_match compile captures1 flist (some (.ok s)) =
        .ok (some (cap ++ "\n"))) ∧
    (∀ s r, compile flist.regex = .ok r → captures1 r s = none →
      regex_match compile captures1 flist (some (.ok s)) = .ok none) := by
  refine ⟨rfl, fun e => ⟨"Error: " ++ e, rfl⟩, ?_, ?_, ?_⟩
  · intro s e he
    refine ⟨"List ", " - " ++ e, ?_⟩
    simp [regex_match, he, String.append_assoc]
  · intro s r cap hr hc
    simp [regex_match, hr, hc]
  · intro s r hr hc
    simp [regex_match, hr, hc]

/-- Witness for C3 with a trivial regex engine (compiled type `Unit`,
capturing the whole line when the pattern is non-empty). -/
theorem regex_match_cases_witness :
    regex_match (fun p => if p = "" then .error "empty" else .ok ())
      (fun _ s => some s) ⟨"ads", "", none, none, [], "(.*)"⟩
      (some (.ok "x.example")) = .ok (some ("x.example" ++ "\n")) :=
  (regex_match_cases (fun p => if p = "" then .error "empty" else .ok ())
      (fun _ s => some s) ⟨"ads", "", none, none, [], "(.*)"⟩).2.2.2.1
    "x.example" () "x.example" rfl rfl

/-- How a `process` task ends (`src/filter_controller.rs`): end-of-stream
(`Ok(None)` from the reader), a logged read error, or a panic (the `.unwrap()`
on the transform's result when it is `Err`). -/
inductive TaskEnd
  | eos
  | readErr
  | panicked
deriving DecidableEq

/-- The observable outcome of one `process` task: chunks written (in order),
messages sent over the logging channel, and how the task ended. -/
structure TaskResult where
  written : List String
  logged : List String
  ended : TaskEnd
deriving DecidableEq

/-- The loop body of a task spawned by `process`
(`src/filter_controller.rs`, the `tokio::spawn` closure): the reader's
successive `chunk()` outcomes are the input list (end of list = `Ok(None)`).
An `Ok` chunk is passed to the transform, whose result is `.unwrap()`ed — an
`Err` transform result panics the task, logging nothing. A transform `Ok
None` writes nothing; `Ok (Some out)` appends `out` to the writer. A read
error sends its message over the channel and breaks. Write errors and the
cancellation-command check are elided (not involved in the claims). -/
def process_task (f : String → Except String (Option String)) :
    List (Except String String) → TaskResult
  | [] => ⟨[], [], .eos⟩
  | .ok c :: rest =>
    match f c with
    | .error _ => ⟨[], [], .panicked⟩
    | .ok none => process_task f rest
    | .ok (some out) =>
      let r := process_task f rest
      ⟨out :: r.written, r.logged, r.ended⟩
  | .error e :: _ => ⟨[], [e], .readErr⟩

/-- The writes a task produces from a prefix of all-successful chunks. -/
def process_task_writes (f : String → Except String (Option String))
    (l : List (Except String String)) : List String :=
  l.filterMap (fun x =>
    match x with
    | .ok c =>
      match f c with
      | .ok (some out) => some out
      | _ => none
    | .error _ => none)

/-- Counterexample to C4 as stated: on a transform failure the task ends by
panicking (the `.unwrap()` on the transform result) and the engine logs
nothing — the logged-message list is empty, refuting "logs the failure and
terminates". -/
theorem process_task_transform_failure_not_logged :
    process_task (fun _ => .error "boom") [.ok "x"] = ⟨[], [], .panicked⟩ ∧
    (process_task (fun _ => .error "boom") [.ok "x"]).logged = [] := by
  constructor <;> rfl

/-- C4 (amended): when the transform fails on a chunk, the task panics on
unwrapping the error — it stops without processing further chunks and
without sending any message over the logging channel; the chunks written are
exactly those transformed successfully before the failing one. (In tokio a
panicking task is isolated, so the other lists' tasks are unaffected; that
isolation is not part of this model.) -/
theorem process_task_transform_failure_panics
    (f : String → Except String (Option String))
    (pre rest : List (Except String String)) (c e : String)
    (hpre : ∀ x ∈ pre, ∃ cx rx, x = .ok cx ∧ f cx = .ok rx)
    (hc : f c = .error e) :
    process_task f (pre ++ .ok c :: rest) =
      ⟨process_task_writes f pre, [], .panicked⟩ := by
  induction pre with
  | nil =>
    simp only [List.nil_append, process_task, hc, process_task_writes,
      List.filterMap_nil]
  | cons x xs ih =>
    rcases hpre x (List.mem_cons_self _ _) with ⟨cx, rx, rfl, hfx⟩
    have ih' := ih (fun y hy => hpre y (List.mem_cons_of_mem _ hy))
    cases rx with
    | none =>
      calc process_task f ((Except.ok cx :: xs) ++ Except.ok c :: rest)
          = process_task f (xs ++ Except.ok c :: rest) := by
            simp only [List.cons_append, process_task, hfx, List.append_eq]
        _ = ⟨process_task_writes f xs, [], .panicked⟩ := ih'
        _ = ⟨process_task_writes f (Except.ok cx :: xs), [], .panicked⟩ := by
            simp only [process_task_writes, List.filterMap_cons, hfx]
    | some out =>
      calc process_task f ((Except.ok cx :: xs) ++ Except.ok c :: rest)
          = ⟨out :: (process_task f (xs ++ Except.ok c :: rest)).written,
              (process_task f (xs ++ Except.ok c :: rest)).logged,
              (process_task f (xs ++ Except.ok c :: rest)).ended⟩ := by
            simp only [List.cons_append, process_task, hfx, List.append_eq]
        _ = ⟨out :: process_task_writes f xs, [], .panicked⟩ := by rw [ih']
        _ = ⟨process_task_writes f (Except.ok cx :: xs), [], .panicked⟩ := by
            simp only [process_task_writes, List.filterMap_cons, hfx]

/-- Witness for C4 (amended): one successful chunk followed by a failing one;
the task panics with only the first chunk's output written and nothing
logged. -/
theorem process_task_transform_failure_panics_witness :
    process_task
        (fun s => if s = "b" then .error "x" else .ok (some (s ++ "!")))
        ([.ok "a"] ++ .ok "b" :: [.ok "c"]) =
      ⟨process_task_writes
        (fun s => if s = "b" then .error "x" else .ok (some (s ++ "!")))
        [.ok "a"], [], .panicked⟩ :=
  process_task_transform_failure_panics
    (fun s => if s = "b" then .error "x" else .ok (some (s ++ "!")))
    [.ok "a"] [.ok "c"] "b" "x"
    (by
      intro x hx
      rcases List.mem_singleton.mp hx with rfl
      exact ⟨"a", some ("a" ++ "!"), rfl, rfl⟩)
    rfl

/-- A `FilterListIO` as handed to `process`: a list descriptor paired with an
optional reader and an optional writer (the descriptor itself is irrelevant
to the engine's take/unwrap step and omitted). -/
structure FilterListIOState (R W : Type) where
  reader : Option R
  writer : Option W

/-- The spawn loop of `process` (`src/filter_controller.rs`): for each item,
`reader.take().unwrap()` and `writer.take().unwrap()` acquire the I/O pair.
An item with a missing reader or writer makes the whole call panic
(modelled as `none`); otherwise the acquired pairs are returned. -/
def process_spawn {R W : Type} :
    List (FilterListIOState R W) → Option (List (R × W))
  | [] => some []
  | it :: rest =>
    match it.reader, it.writer with
    | some r, some w => (process_spawn rest).map (fun hs => (r, w) :: hs)
    | _, _ => none

/-- C10: `process` is total only when every item has both a reader and a
writer attached: any input sequence containing an item whose reader or
writer is `None` makes the engine panic (the `unwrap` of a taken `None`),
rather than return an error. -/
theorem process_spawn_panics_on_missing_io {R W : Type}
    (items : List (FilterListIOState R W)) (it : FilterListIOState R W)
    (hmem : it ∈ items) (hmiss : it.reader = none ∨ it.writer = none) :
    process_spawn items = none := by
  induction items with
  | nil => cases hmem
  | cons x xs ih =>
    rcases List.mem_cons.mp hmem with rfl | hx
    · rcases hmiss with hr | hw
      · rw [process_spawn, hr]
      · rw [process_spawn, hw]
        rcases h : it.reader with _ | r <;> rfl
    · rw [process_spawn]
      rcases hr : x.reader with _ | r
      · rfl
      · rcases hw : x.writer with _ | w
        · rfl
        · rw [ih hx]
          rfl

/-- Witness for C10: a single item with no reader attached panics the
engine. -/
theorem process_spawn_panics_on_missing_io_witness :
    process_spawn [(⟨none, some ()⟩ : FilterListIOState Unit Unit)] = none :=
  process_spawn_panics_on_missing_io
    [(⟨none, some ()⟩ : FilterListIOState Unit Unit)] ⟨none, some ()⟩
    (List.mem_singleton.mpr rfl) (Or.inl rfl)

/-- The per-list loop of `prepare_extract` (`src/stages/extract.rs`).
Filesystem effects are abstracted: `downloadAttach id` is the outcome of
`attach_existing_input_file(download_path, ..)` for the list (its success
does not depend on the compression argument), `extractOpen id` is
`attach_existing_file_writer(extract_path).is_ok()`, and `newWriter id` the
outcome of `attach_new_file_writer(extract_path)`. Returns the enqueued list
ids (in order) and the final cached set, or the first propagated error (the
`?` operators in the loop body). -/
def prepare_extract (downloadAttach : String → Except String Unit)
    (extractOpen : String → Bool) (newWriter : String → Except String Unit) :
    List FilterList → List String → Except String (List String × List String)
  | [], cached => .ok ([], cached)
  | l :: rest, cached =>
    if cached.contains l.id && (downloadAttach l.id).isOk && extractOpen l.id
    then
      prepare_extract downloadAttach extractOpen newWriter rest cached
    else
      let cachedNext := cached.filter (fun x => x ≠ l.id)
      match downloadAttach l.id with
      | .error e => .error e
      | .ok _ =>
        match newWriter l.id with
        | .error e => .error e
        | .ok _ =>
          (prepare_extract downloadAttach extractOpen newWriter rest
            cachedNext).map (fun p => (l.id :: p.1, p.2))

/-- Counterexample to C8 as stated: with two configured lists where opening
`download/l1` fails (and `l1` is not cache-skipped), `prepare_extract`
returns that error — the whole stage preparation aborts, and `l2` is never
enqueued, instead of skipping only `l1`. -/
theorem prepare_extract_open_failure_aborts :
    prepare_extract
        (fun i => if i = "l1" then .error "file not found: l1" else .ok ())
        (fun _ => false) (fun _ => .ok ())
        [⟨"l1", "", none, none, [], ""⟩, ⟨"l2", "", none, none, [], ""⟩]
        [] =
      .error "file not found: l1" := by
  rfl

/-- C8 (amended): a failure to open the download artifact for a list that is
not cache-skipped makes `prepare_extract` return that error immediately (the
`?` on `attach_existing_input_file`), aborting the stage's preparation; the
remaining lists are not processed. -/
theorem prepare_extract_open_failure_propagates
    (downloadAttach : String → Except String Unit)
    (extractOpen : String → Bool) (newWriter : String → Except String Unit)
    (l : FilterList) (rest : List FilterList) (cached : List String)
    (e : String) (hfail : downloadAttach l.id = .error e) :
    prepare_extract downloadAttach extractOpen newWriter (l :: rest) cached =
      .error e := by
  rw [prepare_extract, hfail]
  simp only [Except.isOk, Except.toBool, Bool.and_eq_true, ite_eq_right_iff,
    and_imp]
  intro _ h
  cases h

/-- Witness for C8 (amended): the head list's download artifact fails to
open, so preparation errors out for any tail. -/
theorem prepare_extract_open_failure_propagates_witness :
    prepare_extract (fun _ => .error "boom") (fun _ => true)
        (fun _ => .ok ()) [⟨"a", "", none, none, [], ""⟩]
        ["a"] =
      .error "boom" :=
  prepare_extract_open_failure_propagates (fun _ => .error "boom")
    (fun _ => true) (fun _ => .ok ()) ⟨"a", "", none, none, [], ""⟩ [] ["a"]
    "boom" rfl

/-- `read_bytes_to_newline` (`src/input/file.rs`), the line reader used for
Gz and TarGz handles. One byte is taken at a time from the stream. A byte
equal to 10 (LF) returns the accumulated buffer — without appending the LF.
Otherwise the byte is appended, and reaching the 1024-byte buffer capacity
(`vec_buf.len() >= vec_buf.capacity()` after the extend) fails. End of
stream returns `Ok(None)`, discarding any accumulated partial line. Returns
the chunk outcome together with the unconsumed remainder of the stream. -/
def read_bytes_to_newline (buf : List Nat) :
    List Nat → Except String (Option (List Nat) × List Nat)
  | [] => .ok (none, [])
  | b :: rest =>
    if b = 10 then .ok (some buf, rest)
    else
      if 1024 ≤ (buf ++ [b]).length then
        .error "Error reading chunk from file: line lenght exceedes buffer capacity"
      else read_bytes_to_newline (buf ++ [b]) rest

/-- `FileInput::chunk` for a Gz or TarGz handle: run the byte reader with the
fresh 1024-capacity buffer (`Vec::with_capacity(BUF_SIZE)`). -/
def chunk_gz (stream : List Nat) : Except String (Option (List Nat) × List Nat) :=
  read_bytes_to_newline [] stream

/-- `read_line` on the plain (uncompressed) handle, at the byte level: the
returned line includes the terminating LF when present; the final line
without a trailing LF is still returned; an empty stream is end-of-stream.
(Its UTF-8 validation is elided — the claims using it concern byte
boundaries only.) -/
def split_line : List Nat → List Nat × List Nat
  | [] => ([], [])
  | b :: rest =>
    if b = 10 then ([10], rest)
    else
      let p := split_line rest
      (b :: p.1, p.2)

/-- `FileInput::chunk` for the plain handle. -/
def chunk_plain : List Nat → Option (List Nat) × List Nat
  | [] => (none, [])
  | b :: rest => (some (split_line (b :: rest)).1, (split_line (b :: rest)).2)

/-- Counterexample to C6 as stated: on the stream `a` LF, the Gz chunk is
`[97]` — the bytes up to but excluding the LF, not "up to and including the
next LF" (which would be `[97, 10]`). -/
theorem chunk_gz_excludes_lf :
    chunk_gz [97, 10] = .ok (some [97], []) ∧ [97] ≠ [97, 10] :=
  ⟨rfl, by decide⟩

theorem read_bytes_to_newline_line {line : List Nat} (buf : List Nat)
    (rest : List Nat) (hlf : ∀ b ∈ line, b ≠ 10)
    (hlen : buf.length + line.length < 1024) :
    read_bytes_to_newline buf (line ++ 10 :: rest) =
      .ok (some (buf ++ line), rest) := by
  induction line generalizing buf with
  | nil => simp [read_bytes_to_newline]
  | cons b bs ih =>
    have hb : b ≠ 10 := hlf b (List.mem_cons_self _ _)
    have hcap : ¬ 1024 ≤ (buf ++ [b]).length := by
      simp only [List.length_append, List.length_cons, List.length_nil] at hlen ⊢
      omega
    rw [List.cons_append, read_bytes_to_newline]
    simp only [hb, if_false, hcap]
    rw [ih (buf ++ [b]) (fun x hx => hlf x (List.mem_cons_of_mem _ hx))
      (by simp only [List.length_append, List.length_cons,
        List.length_nil] at hlen ⊢; omega)]
    simp

theorem read_bytes_to_newline_overflow {s : List Nat} (buf : List Nat)
    (hlf : ∀ b ∈ s, b ≠ 10) (hlen : 1024 ≤ buf.length + s.length)
    (hbuf : buf.length < 1024) :
    read_bytes_to_newline buf s =
      .error "Error reading chunk from file: line lenght exceedes buffer capacity" := by
  induction s generalizing buf with
  | nil => simp at hlen; omega
  | cons b bs ih =>
    have hb : b ≠ 10 := hlf b (List.mem_cons_self _ _)
    rw [read_bytes_to_newline]
    simp only [hb, if_false]
    by_cases hcap : 1024 ≤ (buf ++ [b]).length
    · rw [if_pos hcap]
    · simp only [hcap, if_false]
      exact ih (buf ++ [b]) (fun x hx => hlf x (List.mem_cons_of_mem _ hx))
        (by simp only [List.length_append, List.length_cons,
          List.length_nil] at hlen ⊢; simp at hcap; omega)
        (by simp only [List.length_append, List.length_cons,
          List.length_nil]; simp at hcap; omega)

/-- C6 (amended): for Gz (and TarGz) a successful non-final `chunk()` returns
the bytes of one line up to but excluding the terminating LF; and a line
that reaches the 1024-byte buffer capacity before an LF is seen makes
`chunk()` fail. -/
theorem chunk_gz_line_behaviour :
    (∀ line rest : List Nat, (∀ b ∈ line, b ≠ 10) → line.length < 1024 →
      chunk_gz (line ++ 10 :: rest) = .ok (some line, rest)) ∧
    (∀ s : List Nat, (∀ b ∈ s, b ≠ 10) → 1024 ≤ s.length →
      chunk_gz s =
        .error "Error reading chunk from file: line lenght exceedes buffer capacity") := by
  constructor
  · intro line rest hlf hlen
    rw [chunk_gz, read_bytes_to_newline_line [] rest hlf (by simpa using hlen)]
    simp
  · intro s hlf hlen
    exact read_bytes_to_newline_overflow [] hlf (by simpa using hlen)
      (by norm_num)

/-- Witness for C6 (amended): the stream `ab` LF `c` yields the line `ab`
with remainder `c`; a 1024-byte LF-free stream fails. -/
theorem chunk_gz_line_behaviour_witness :
    chunk_gz ([97, 98] ++ 10 :: [99]) = .ok (some [97, 98], [99]) ∧
    chunk_gz (List.replicate 1024 97) =
      .error "Error reading chunk from file: line lenght exceedes buffer capacity" :=
  ⟨chunk_gz_line_behaviour.1 [97, 98] [99] (by decide) (by decide),
    chunk_gz_line_behaviour.2 (List.replicate 1024 97)
      (fun b hb => by
        have := List.eq_of_mem_replicate hb
        omega)
      (by simp only [List.length_replicate]; exact Nat.le_refl 1024)⟩

/-- Counterexample to C7 as stated: on the stream `a` with no trailing LF,
the Gz/TarGz `chunk()` returns end-of-stream (`Ok(None)`), discarding the
non-empty final line, while the plain handle does emit it. -/
theorem chunk_gz_drops_final_line :
    chunk_gz [97] = .ok (none, []) ∧ chunk_plain [97] = (some [97], []) :=
  ⟨rfl, rfl⟩

theorem split_line_no_lf {s : List Nat} (hlf : ∀ b ∈ s, b ≠ 10) :
    split_line s = (s, []) := by
  induction s with
  | nil => rfl
  | cons b bs ih =>
    have hb : b ≠ 10 := hlf b (List.mem_cons_self _ _)
    rw [split_line]
    simp only [hb, if_false]
    rw [ih (fun x hx => hlf x (List.mem_cons_of_mem _ hx))]

theorem read_bytes_to_newline_eof {s : List Nat} (buf : List Nat)
    (hlf : ∀ b ∈ s, b ≠ 10) (hlen : buf.length + s.length < 1024) :
    read_bytes_to_newline buf s = .ok (none, []) := by
  induction s generalizing buf with
  | nil => rfl
  | cons b bs ih =>
    have hb : b ≠ 10 := hlf b (List.mem_cons_self _ _)
    have hcap : ¬ 1024 ≤ (buf ++ [b]).length := by
      simp only [List.length_append, List.length_cons, List.length_nil] at hlen ⊢
      omega
    rw [read_bytes_to_newline]
    simp only [hb, if_false, hcap]
    exact ih (buf ++ [b]) (fun x hx => hlf x (List.mem_cons_of_mem _ hx))
      (by simp only [List.length_append, List.length_cons,
        List.length_nil] at hlen ⊢; omega)

/-- C7 (amended): when the data ends with a non-empty final line lacking a
trailing LF (shorter than the 1024-byte bound), the plain `FileInput` emits
that final line before end-of-stream, but the Gz and TarGz readers report
end-of-stream immediately, silently discarding it. -/
theorem final_line_without_lf (s : List Nat) (hne : s ≠ [])
    (hlf : ∀ b ∈ s, b ≠ 10) (hlen : s.length < 1024) :
    chunk_plain s = (some s, []) ∧ chunk_gz s = .ok (none, []) := by
  constructor
  · cases s with
    | nil => exact absurd rfl hne
    | cons b bs =>
      rw [chunk_plain, split_line_no_lf hlf]
  · exact read_bytes_to_newline_eof [] hlf (by simpa using hlen)

/-- Witness for C7 (amended) on the stream `ab` with no trailing LF. -/
theorem final_line_without_lf_witness :
    chunk_plain [97, 98] = (some [97, 98], []) ∧
    chunk_gz [97, 98] = .ok (none, []) :=
  final_line_without_lf [97, 98] (by decide) (by decide) (by decide)

/-- One `chunk()` outcome as seen by the Hostsfile adapter
(`src/output/hostsfile.rs`): a chunk that decodes to a line, a chunk whose
bytes are not valid UTF-8 (skipped — the constructed error value is
discarded and the loop continues), or a read error (logged, then the loop
breaks). -/
inductive HChunk
  | ok (l : Line)
  | badUtf8
  | readErr
deriving DecidableEq

/-- The lines the Hostsfile adapter writes for a stream of chunk outcomes:
each decoded chunk unconditionally produces
`"0.0.0.0 " ++ trim_end(chunk) ++ "\n"` (write errors are logged and the
loop continues; the cancellation check is elided). -/
def hostsfile_adapter : List HChunk → List Line
  | [] => []
  | .ok l :: rest =>
    ("0.0.0.0 ".data ++ trimRightLine l ++ [lf]) :: hostsfile_adapter rest
  | .badUtf8 :: rest => hostsfile_adapter rest
  | .readErr :: _ => []

/-- Counterexample to C9 as stated: a whitespace-only input line produces the
output line `0.0.0.0 \n` — an output line is emitted even though the trimmed
input is empty. -/
theorem hostsfile_adapter_emits_for_blank_line :
    hostsfile_adapter [HChunk.ok " \n".data] = ["0.0.0.0 \n".data] ∧
    hostsfile_adapter [HChunk.ok " \n".data] ≠ [] := by
  constructor
  · rfl
  · decide

/-- C9 (amended): every line the Hostsfile adapter emits has the shape
`0.0.0.0 X\n` where `X` is the input chunk with trailing whitespace removed
(`trim_end`) — `X` may be empty (for an empty or whitespace-only chunk) and
may retain leading whitespace; and conversely every decoded chunk before any
read error produces such a line. -/
theorem hostsfile_adapter_line_shape (chunks : List HChunk) :
    ∀ out ∈ hostsfile_adapter chunks, ∃ l, HChunk.ok l ∈ chunks ∧
      out = "0.0.0.0 ".data ++ trimRightLine l ++ [lf] := by
  induction chunks with
  | nil => intro out hout; cases hout
  | cons c rest ih =>
    intro out hout
    cases c with
    | ok l =>
      rcases List.mem_cons.mp hout with rfl | hmem
      · exact ⟨l, List.mem_cons_self _ _, rfl⟩
      · rcases ih out hmem with ⟨l', hl', rfl⟩
        exact ⟨l', List.mem_cons_of_mem _ hl', rfl⟩
    | badUtf8 =>
      rcases ih out hout with ⟨l', hl', rfl⟩
      exact ⟨l', List.mem_cons_of_mem _ hl', rfl⟩
    | readErr => cases hout

/-- Witness for C9 (amended): the single emitted line for the chunk
`a.example\n` has the required shape. -/
theorem hostsfile_adapter_line_shape_witness :
    ∃ l, HChunk.ok l ∈ [HChunk.ok "a.example\n".data] ∧
      "0.0.0.0 a.example\n".data =
        "0.0.0.0 ".data ++ trimRightLine l ++ [lf] :=
  hostsfile_adapter_line_shape [HChunk.ok "a.example\n".data]
    "0.0.0.0 a.example\n".data (by decide)

end Harvester
